import Mathlib

/-!
Shallow embedding of the execution core of the `backtrader` repository
(`linebuffer.py`, `lineroot.py`, `lineiterator.py`, `feed.py`, `cerebro.py`,
`timer.py`) and proofs about the claims of its specification.

Conventions of the embedding:
* Python floats stored in a line are modelled as `Val := Option ℚ`, with
  `none` standing for `NAN` (the "no value" marker).  None of the verified
  claims depends on genuine floating-point rounding.
* Python's `array.array` / `collections.deque` backing store is a `List Val`.
  Python's negative-index wrap-around on reads and writes is reproduced by
  `pyIndex`.
* Machine integers (`idx`, `lencount`, periods, sizes) are `ℤ` (Python ints
  are unbounded, so no modular arithmetic is needed).
-/

namespace Backtrader

/-- A stored cell value: `none` models the float `NAN` used for "no value". -/
abbrev Val := Option ℚ

/-- Python sequence index resolution: indices in `[0, n)` are used as given,
indices in `[-n, 0)` wrap around from the end, anything else is an
`IndexError` (`none`). -/
def pyIndex (n : ℕ) (i : ℤ) : Option ℕ :=
  if 0 ≤ i ∧ i < (n : ℤ) then some i.toNat
  else if -(n : ℤ) ≤ i ∧ i < 0 then some ((n : ℤ) + i).toNat
  else none

/-- Read `l[i]` with Python indexing semantics; `none` is an `IndexError`. -/
def pyGet (l : List Val) (i : ℤ) : Option Val :=
  (pyIndex l.length i).bind (fun j => l.get? j)

/-- Read `l[i]`, collapsing an `IndexError` into `NAN`; the verified paths
only use it at indices shown (or assumed) to be in range. -/
def pyGetD (l : List Val) (i : ℤ) : Val :=
  (pyGet l i).getD none

/-- Write `l[i] = v` with Python indexing semantics (no-op models the
out-of-range `IndexError`; the claims only exercise in-range writes). -/
def pySet (l : List Val) (i : ℤ) (v : Val) : List Val :=
  match pyIndex l.length i with
  | some j => l.set j v
  | none => l

/-- `LineBuffer.UnBounded, QBuffer = (0, 1)` — the two buffer modes. -/
inductive Mode where
  | UnBounded
  | QBuffer
deriving DecidableEq, Repr

/-- The scalar state of one `LineBuffer` (everything except the `bindings`
list, which is the recursive part and lives in `LineBuffer` below):
`array`, `_idx`, `lencount`, `extension`, the `LineSingle` attribute
`_minperiod`, and the `QBuffer`-mode attributes `maxlen`, `extrasize`,
`lenmark`. -/
structure LineState where
  mode : Mode
  array : List Val
  idx : ℤ
  lencount : ℤ
  extension : ℤ
  minperiod : ℤ
  maxlen : ℤ
  extrasize : ℤ
  lenmark : ℤ
deriving DecidableEq, Repr

namespace LineState

/-- `LineBuffer.set_idx(idx, force)`: in `QBuffer` mode the logical index
only moves when `force` is given or `_idx < lenmark`; in `UnBounded` mode it
always moves. -/
def set_idx (c : LineState) (i : ℤ) (force : Bool) : LineState :=
  match c.mode with
  | .QBuffer => if force || decide (c.idx < c.lenmark) then { c with idx := i } else c
  | .UnBounded => { c with idx := i }

/-- One `self.array.append(value)`: a `deque(maxlen=maxlen + extrasize)` at
capacity silently evicts its oldest (leftmost) element; the unbounded
`array.array` just grows. -/
def appendVal (c : LineState) (v : Val) : LineState :=
  match c.mode with
  | .QBuffer =>
      if (c.array.length : ℤ) = c.maxlen + c.extrasize then
        { c with array := c.array.tail ++ [v] }
      else
        { c with array := c.array ++ [v] }
  | .UnBounded => { c with array := c.array ++ [v] }

/-- `size` repetitions of `self.array.append(value)`. -/
def appendN (c : LineState) (v : Val) : ℕ → LineState
  | 0 => c
  | n + 1 => appendN (appendVal c v) v n

/-- One `self.array.pop()` (both backing stores pop from the right). -/
def popVal (c : LineState) : LineState :=
  { c with array := c.array.dropLast }

/-- `size` repetitions of `self.array.pop()`. -/
def popN (c : LineState) : ℕ → LineState
  | 0 => c
  | n + 1 => popN (popVal c) n

/-- `LineBuffer.forward(value, size)`: `self.idx += size` (through the
property setter, i.e. `set_idx` without force), `self.lencount += size`,
then `size` appends of `value`. -/
def forward (c : LineState) (v : Val) (size : ℕ) : LineState :=
  let c1 := set_idx c (c.idx + size) false
  let c2 := { c1 with lencount := c1.lencount + size }
  appendN c2 v size

/-- `LineBuffer.backwards(size, force)`: `set_idx(self._idx - size, force)`,
`self.lencount -= size`, then `size` pops. -/
def backwards (c : LineState) (size : ℕ) (force : Bool) : LineState :=
  let c1 := set_idx c (c.idx - size) force
  let c2 := { c1 with lencount := c1.lencount - size }
  popN c2 size

/-- `LineBuffer.rewind(size)`: move the cursor and the length back without
touching the backing array. -/
def rewind (c : LineState) (size : ℕ) : LineState :=
  let c1 := set_idx c (c.idx - size) false
  { c1 with lencount := c1.lencount - size }

/-- `LineBuffer.advance(size)`: move the cursor and the length forward
without touching the backing array. -/
def advance (c : LineState) (size : ℕ) : LineState :=
  let c1 := set_idx c (c.idx + size) false
  { c1 with lencount := c1.lencount + size }

/-- `LineBuffer.extend(value, size)`: grow the backing array beyond the
cursor's reach (`extension += size` plus `size` appends). -/
def extend (c : LineState) (v : Val) (size : ℕ) : LineState :=
  appendN { c with extension := c.extension + size } v size

/-- `LineBuffer.home()`: `self.idx = -1` (property setter), `lencount = 0`. -/
def home (c : LineState) : LineState :=
  let c1 := set_idx c (-1) false
  { c1 with lencount := 0 }

/-- `LineBuffer.buflen()`: `len(self.array) - self.extension`. -/
def buflen (c : LineState) : ℤ :=
  (c.array.length : ℤ) - c.extension

/-- `LineBuffer.__getitem__(ago)`: `self.array[self.idx + ago]`. -/
def getitem (c : LineState) (ago : ℤ) : Option Val :=
  pyGet c.array (c.idx + ago)

/-- The own-array half of `LineBuffer.__setitem__(ago, value)`:
`self.array[self.idx + ago] = value` (binding propagation is in
`LineBuffer.setitem` below). -/
def setAt (c : LineState) (ago : ℤ) (v : Val) : LineState :=
  { c with array := pySet c.array (c.idx + ago) v }

/-- `LineBuffer.reset()`: fresh backing store, `lencount = 0`,
`self.idx = -1` (property setter), `extension = 0`. -/
def reset (c : LineState) : LineState :=
  let c0 := { c with array := ([] : List Val) }
  let c1 := { c0 with lencount := 0 }
  let c2 := set_idx c1 (-1) false
  { c2 with extension := 0 }

/-- `LineBuffer.qbuffer(savemem, extrasize)`: switch to `QBuffer` mode with
`maxlen = self._minperiod`, `lenmark = maxlen - (not extrasize)`, then
`reset()`. -/
def qbuffer (c : LineState) (extrasize : ℤ) : LineState :=
  reset { c with
    mode := .QBuffer
    maxlen := c.minperiod
    extrasize := extrasize
    lenmark := c.minperiod - (if extrasize = 0 then 1 else 0) }

/-- `LineSingle.addminperiod(minperiod)`:
`self._minperiod += minperiod - 1` (overlapping-period convention). -/
def addminperiod (c : LineState) (n : ℤ) : LineState :=
  { c with minperiod := c.minperiod + n - 1 }

/-- `LineSingle.incminperiod(minperiod)`: `self._minperiod += minperiod`. -/
def incminperiod (c : LineState) (n : ℤ) : LineState :=
  { c with minperiod := c.minperiod + n }

/-- `LineRoot.updateminperiod(minperiod)`:
`self._minperiod = max(self._minperiod, minperiod)`. -/
def updateminperiod (c : LineState) (n : ℤ) : LineState :=
  { c with minperiod := max c.minperiod n }

/-- `LineBuffer.__init__` scalar state: `UnBounded` mode, `reset()`, the
inherited `_minperiod = 1`; the `QBuffer` attributes are unset until
`qbuffer` runs (modelled as `0`). -/
def init : LineState :=
  reset { mode := .UnBounded, array := [], idx := 0, lencount := 0,
          extension := 0, minperiod := 1, maxlen := 0, extrasize := 0,
          lenmark := 0 }

end LineState

/-- A `LineBuffer` proper: its scalar state plus its `bindings` list (other
LineBuffers that receive every value assigned to this one, recursively). -/
inductive LineBuffer : Type where
  | mk : LineState → List LineBuffer → LineBuffer

/-- The scalar state of a `LineBuffer`. -/
def LineBuffer.core : LineBuffer → LineState
  | .mk c _ => c

/-- The `bindings` list of a `LineBuffer`. -/
def LineBuffer.bindings : LineBuffer → List LineBuffer
  | .mk _ bs => bs

mutual

/-- `LineBuffer.__setitem__(ago, value)` (same body as `LineBuffer.set`):
`self.array[self.idx + ago] = value`, then `binding[ago] = value` for every
registered binding (which recursively runs the bindings' own bindings). -/
def LineBuffer.setitem : LineBuffer → ℤ → Val → LineBuffer
  | .mk c bs, ago, v => .mk (c.setAt ago v) (LineBuffer.setitemAll bs ago v)

/-- The `for binding in self.bindings: binding[ago] = value` loop. -/
def LineBuffer.setitemAll : List LineBuffer → ℤ → Val → List LineBuffer
  | [], _, _ => []
  | b :: bs, ago, v => LineBuffer.setitem b ago v :: LineBuffer.setitemAll bs ago v

end

/-- `__getitem__` on a full `LineBuffer` reads only its own array. -/
def LineBuffer.getitem (b : LineBuffer) (ago : ℤ) : Option Val :=
  b.core.getitem ago

/-! ### The `_next` dispatchers (`lineiterator.py` / `linebuffer.py`) -/

/-- Which of the user hooks a `_next` invocation dispatches to. -/
inductive NAction where
  | callNext
  | callNextstart
  | callPrenext
  | nothing
deriving DecidableEq, Repr

/-- The dispatch performed by `LineIterator._next` for non-strategy objects:
`if clock_len > self._minperiod: self.next()`,
`elif clock_len == self._minperiod: self.nextstart()`,
`elif clock_len: self.prenext()` — note the truthiness guard, under which a
zero `clock_len` dispatches nothing. -/
def lineIteratorDispatch (clock_len minperiod : ℤ) : NAction :=
  if clock_len > minperiod then .callNext
  else if clock_len = minperiod then .callNextstart
  else if clock_len ≠ 0 then .callPrenext
  else .nothing

/-- The dispatch performed by `LineActions._next`:
`if clock_len > self._minperiod: self.next()`,
`elif clock_len == self._minperiod: self.nextstart()`,
`else: self.prenext()`. -/
def lineActionsDispatch (clock_len minperiod : ℤ) : NAction :=
  if clock_len > minperiod then .callNext
  else if clock_len = minperiod then .callNextstart
  else .callPrenext

/-! ### The `LineActions` indicators: per-bar (`_next`) vs vectorized
(`_once`) execution

`linebuffer.py` defines four concrete `LineActions` indicators —
`_LineDelay`, `_LineForward`, `LinesOperation` and `LineOwnOperation`.
They share the `LineActions._next` / `LineActions._once` scaffold and
differ only in what their `next()` / `once()` write: one value per bar,
read from the operand lines at the engine cursor and stored at a fixed
offset from the own cursor (`self[0] = ...` for all of them except
`_LineForward`, whose `next()` is `self[-self.ago] = self.a[0]`).  The
scaffold is embedded once, parametrized by the per-bar read `f` (a
function of the source cursor) and the write offset `wofs` (`0`, or `ago`
for `_LineForward`); each class is an instance.

The operand lines are modelled as their fully materialized backing lists;
at engine tick `k` every operand clock has `len = k` and its cursor sits
at physical slot `k - 1` (the unbounded feed invariant
`idx == lencount - 1`), so `self.a[0]` reads slot `k - 1` and
`self.a[self.ago]` reads slot `k - 1 + ago`. -/

/-- One `LineActions._next` invocation at clock length `klen`:
`if clock_len > len(self): self.forward()`, then the
`lineActionsDispatch`, where `next()` (and `nextstart()`, which defaults
to `next()` per `LineRoot.nextstart`) stores the value `f (klen - 1)` at
`self[-wofs]`, while `prenext()` is a no-op. -/
def genNextStep (f : ℤ → Val) (wofs : ℕ) (c : LineState) (klen : ℕ) :
    LineState :=
  let c1 := if (klen : ℤ) > c.lencount then c.forward none 1 else c
  match lineActionsDispatch (klen : ℤ) c.minperiod with
  | .callNext => c1.setAt (-(wofs : ℤ)) (f ((klen : ℤ) - 1))
  | .callNextstart => c1.setAt (-(wofs : ℤ)) (f ((klen : ℤ) - 1))
  | _ => c1

/-- Driving a fresh indicator bar-by-bar over `N` source bars: one
`_next` per engine tick `k = 1 .. N`. -/
def genRunN (f : ℤ → Val) (wofs mp N : ℕ) : LineState :=
  (List.range N).foldl (fun c k => genNextStep f wofs c (k + 1))
    { LineState.init with minperiod := (mp : ℤ) }

/-- The `for i in range(start, end): dst[i - wofs] = <read i>` loop shared
by the `once` implementations (`wofs = 0` and `<read i> = src[i + ago]`
for `_LineDelay.once`, `op(srca[i], srcb[i])` / `op(srca[i])` for the
operation classes; `wofs = ago` and `<read i> = src[i]` for
`_LineForward.once`), written with the loop's trip count as structural
fuel. -/
def genOnceLoop (f : ℤ → Val) (wofs : ℕ) : List Val → ℕ → ℕ → List Val
  | dst, _, 0 => dst
  | dst, i, fuel + 1 =>
      genOnceLoop f wofs
        (pySet dst ((i : ℤ) - (wofs : ℤ)) (f (i : ℤ))) (i + 1) fuel

/-- `LineActions._once` of a fresh indicator over `N` source bars:
`self.forward(size=self._clock.buflen())`, `self.home()`,
`self.preonce(0, mp - 1)` (a no-op), `self.oncestart(mp - 1, mp)`
(defaults to `once`, per `LineRoot.oncestart`), `self.once(mp,
self.buflen())`; `oncebinding` is a no-op for an unbound line. -/
def genOnce (f : ℤ → Val) (wofs mp N : ℕ) : LineState :=
  let c1 := ({ LineState.init with minperiod := (mp : ℤ) }).forward none N
  let c2 := c1.home
  let a1 := genOnceLoop f wofs c2.array (mp - 1) (mp - (mp - 1))
  let a2 := genOnceLoop f wofs a1 mp (N - mp)
  { c2 with array := a2 }

/-- `_LineDelay` (`ago ≤ 0`) bar-by-bar: `next()` is
`self[0] = self.a[self.ago]`, i.e. read `src[(k - 1) + ago]`, write offset
`0`; its minimum period is `a._minperiod + |ago|` via
`addminperiod(abs(ago) + 1)`. -/
def lineDelayNextRun (src : List Val) (ago : ℤ) (mp : ℕ) : LineState :=
  genRunN (fun j => pyGetD src (j + ago)) 0 mp src.length

/-- `_LineDelay` vectorized: `once` is
`for i in range(start, end): dst[i] = src[i + ago]`. -/
def lineDelayOnce (src : List Val) (ago : ℤ) (mp : ℕ) : LineState :=
  genOnce (fun j => pyGetD src (j + ago)) 0 mp src.length

/-- `_LineForward` (`ago > 0`) bar-by-bar: `next()` is
`self[-self.ago] = self.a[0]`, i.e. read `src[k - 1]`, write offset `ago`;
its minimum period is `max(a._minperiod, ago)` (when
`ago > a._minperiod`, `addminperiod(ago - a._minperiod + 1)` makes it
exactly `ago`). -/
def lineForwardNextRun (src : List Val) (ago mp : ℕ) : LineState :=
  genRunN (fun j => pyGetD src j) ago mp src.length

/-- `_LineForward` vectorized: `once` is
`for i in range(start, end): dst[i - ago] = src[i]`. -/
def lineForwardOnce (src : List Val) (ago mp : ℕ) : LineState :=
  genOnce (fun j => pyGetD src j) ago mp src.length

/-- `LinesOperation` on two line operands bar-by-bar: `next()` is
`self[0] = self.operation(self.a[0], self.b[0])`, i.e. read
`op(srca[k - 1], srcb[k - 1])`, write offset `0`. -/
def linesOperationNextRun (srca srcb : List Val) (op : Val → Val → Val)
    (mp : ℕ) : LineState :=
  genRunN (fun j => op (pyGetD srca j) (pyGetD srcb j)) 0 mp srca.length

/-- `LinesOperation` vectorized: `_once_op` is
`for i in range(start, end): dst[i] = op(srca[i], srcb[i])`. -/
def linesOperationOnce (srca srcb : List Val) (op : Val → Val → Val)
    (mp : ℕ) : LineState :=
  genOnce (fun j => op (pyGetD srca j) (pyGetD srcb j)) 0 mp srca.length

/-- `LineOwnOperation` bar-by-bar: `next()` is
`self[0] = self.operation(self.a[0])`. -/
def lineOwnOperationNextRun (src : List Val) (op : Val → Val) (mp : ℕ) :
    LineState :=
  genRunN (fun j => op (pyGetD src j)) 0 mp src.length

/-- `LineOwnOperation` vectorized: `once` is
`for i in range(start, end): dst[i] = op(srca[i])`. -/
def lineOwnOperationOnce (src : List Val) (op : Val → Val) (mp : ℕ) :
    LineState :=
  genOnce (fun j => op (pyGetD src j)) 0 mp src.length

/-! ### The feed load protocol (`feed.py`, `AbstractDataBase.load` / `next`)

A feed is reduced to its `datetime` line (the only line `load` inspects),
its `_barstack` / `_barstash` deques (each stacked bar reduced to its
datetime cell) and its concrete source.  The concrete `_load` of a subclass
is modelled as a script: one `SrcRes` consumed per `_load` call, with the
base-class `return False` once the script is exhausted.  The model covers a
feed with no filters and no input timezone (`self._filters == []`,
`self._tzinput` falsy), the configuration of a plain data feed. -/

/-- One answer of the concrete `_load`: a bar carrying a datetime (`True`
after filling the lines), "no bar right now" (`None`), or "done"
(`False`). -/
inductive SrcRes where
  | bar (dt : Val)
  | nobar
  | finished
deriving DecidableEq, Repr

/-- The value `AbstractDataBase.load` returns: `True` (a bar is there),
`None` (no bar, feed not done), `False` (done). -/
inductive LoadRet where
  | yes
  | nores
  | over
deriving DecidableEq, Repr

/-- The state of a loading feed. -/
structure FeedState where
  buf : LineState
  barstack : List Val
  barstash : List Val
  src : List SrcRes
  fromdate : ℚ
  todate : ℚ
deriving DecidableEq

/-- The tail of a `load` iteration once a bar sits in the lines: the
`fromdate` / `todate` window checks (`dt = self.lines.datetime[0]`;
`dt < self.fromdate` → `backwards(); continue`, signalled as `.inr`;
`dt > self.todate` → `backwards(force=True); break` and `return False`;
otherwise `return True`).  A `NAN` datetime compares false on both sides,
as in Python. -/
def loadCheckDates (fs : FeedState) : (LoadRet × FeedState) ⊕ FeedState :=
  match pyGetD fs.buf.array fs.buf.idx with
  | none => .inl (.yes, fs)
  | some q =>
      if q < fs.fromdate then
        .inr { fs with buf := fs.buf.backwards 1 false }
      else if q > fs.todate then
        .inl (.over, { fs with buf := fs.buf.backwards 1 true })
      else
        .inl (.yes, fs)

/-- Resolution of a `loadCheckDates` verdict: an `.inl` result returns from
`load`, an `.inr` state re-enters the loop through the continuation `k`. -/
def loadStep (r : (LoadRet × FeedState) ⊕ FeedState)
    (k : FeedState → LoadRet × FeedState) : LoadRet × FeedState :=
  match r with
  | .inl out => out
  | .inr fs2 => k fs2

/-- The `while True` loop of `AbstractDataBase.load`, with structural fuel
(`load` below supplies fuel exceeding the possible number of iterations, as
every non-returning iteration consumes a `_barstash` or `src` element). -/
def loadLoop : FeedState → ℕ → LoadRet × FeedState
  | fs, 0 => (.over, fs)
  | fs, fuel + 1 =>
    -- self.forward()
    let fs1 := { fs with buf := fs.buf.forward none 1 }
    -- if self._fromstack(): return True
    match fs1.barstack with
    | b :: rest =>
        (.yes, { fs1 with buf := fs1.buf.setAt 0 b, barstack := rest })
    | [] =>
      -- if not self._fromstack(stash=True): _loadret = self._load() ...
      match fs1.barstash with
      | b :: rest =>
          loadStep
            (loadCheckDates { fs1 with buf := fs1.buf.setAt 0 b, barstash := rest })
            (fun fs2 => loadLoop fs2 fuel)
      | [] =>
        match fs1.src with
        | [] =>
            -- base-class _load(): False; undo the pointer, forward the result
            (.over, { fs1 with buf := fs1.buf.backwards 1 true })
        | s :: rest =>
          let fs2 := { fs1 with src := rest }
          match s with
          | .bar dt =>
              loadStep
                (loadCheckDates { fs2 with buf := fs2.buf.setAt 0 dt })
                (fun fs3 => loadLoop fs3 fuel)
          | .nobar => (.nores, { fs2 with buf := fs2.buf.backwards 1 true })
          | .finished => (.over, { fs2 with buf := fs2.buf.backwards 1 true })

/-- `AbstractDataBase.load`, with fuel covering every possible iteration
count of its `while True` loop. -/
def load (fs : FeedState) : LoadRet × FeedState :=
  loadLoop fs (fs.barstash.length + fs.src.length + 1)

/-! ### Clock synchronization (`cerebro.py` `_runnext`, `feed.py` `next`) -/

/-- `AbstractDataBase.next(datamaster, ticks=False)` on a feed that is not
preloaded (`len(self) >= self.buflen()`), against a master whose current
datetime is `dt0`: run `load`; forward a falsy result; otherwise deliver the
bar unless its datetime exceeds the master's, in which case `rewind` and
return `False` — with no exception for replaying feeds. -/
def nextWithMaster (fs : FeedState) (dt0 : ℚ) : LoadRet × FeedState :=
  let r := load fs
  match r.1 with
  | .yes =>
      match pyGetD r.2.buf.array r.2.buf.idx with
      | some dt =>
          if dt > dt0 then (.over, { r.2 with buf := r.2.buf.rewind 1 })
          else (.yes, r.2)
      | none => (.yes, r.2)
  | x => (x, r.2)

/-- What the final per-feed adjustment loop of `Cerebro._runnext` does with
a delivered datetime. -/
inductive AdjustAction where
  | rewindBar
  | tickfill
  | keep
deriving DecidableEq, Repr

/-- The body of `for i, dti in enumerate(dts)` in `Cerebro._runnext`:
`rpi = False and di.replaying` (identically false), then
`if dti > dt0: if not rpi: di.rewind()`,
`elif not di.replaying: di._tick_fill(force=True)`. -/
def runnextAdjust (dti : Option ℚ) (dt0 : ℚ) (replaying : Bool) : AdjustAction :=
  match dti with
  | none => .keep
  | some d =>
    let rpi := false && replaying
    if d > dt0 then
      if !rpi then .rewindBar else .keep
    else if !replaying then .tickfill
    else .keep

/-! ### The timer subsystem (`timer.py`, `Timer.check`)

Time axis.  Modelled from the spec: the numeric time format of
`utils.num2date` / `utils.date2num` (whose module is not part of the given
sources) is represented as microseconds on an integer axis, with
`num2date` / `date2num` the identity; a calendar date is its day number
`dt / USPERDAY`, and `datetime.combine(ddate, t)` is
`ddate * USPERDAY + t`.  The order on datetimes and the date-extraction
respect the originals, which is all `Timer.check` uses of them.  The Python
stdlib pieces `date.month`, `date.day`, `date.isocalendar()` and the data
feed's `_getnexteos()` are kept abstract as an environment of functions. -/

/-- Microseconds per day. -/
def USPERDAY : ℤ := 86400000000

/-- `utils.TIME_MAX` (`time.max`) as microseconds within a day. -/
def TIMEMAX : ℤ := USPERDAY - 1

/-- Calendar date (day number) of a model datetime. -/
def dateOf (dt : ℤ) : ℤ := dt / USPERDAY

/-- `datetime.combine(ddate, t)` on the model axis. -/
def combine (ddate t : ℤ) : ℤ := ddate * USPERDAY + t

/-- The loop of `bisect.bisect_left(a, x, lo, hi)`, with structural fuel
(binary search halves, so any fuel above `len(a)` is ample). -/
def bisectLeftLoop (a : List ℤ) (x : ℤ) : ℕ → ℕ → ℕ → ℕ
  | 0, lo, _ => lo
  | fuel + 1, lo, hi =>
      if lo < hi then
        let mid := (lo + hi) / 2
        if a.getD mid 0 < x then bisectLeftLoop a x fuel (mid + 1) hi
        else bisectLeftLoop a x fuel lo mid
      else lo

/-- `bisect.bisect_left(a, x)`. -/
def bisectLeft (a : List ℤ) (x : ℤ) : ℕ :=
  bisectLeftLoop a x (a.length + 1) 0 a.length

/-- The loop of `bisect.bisect_right(a, x, lo, hi)`. -/
def bisectRightLoop (a : List ℤ) (x : ℤ) : ℕ → ℕ → ℕ → ℕ
  | 0, lo, _ => lo
  | fuel + 1, lo, hi =>
      if lo < hi then
        let mid := (lo + hi) / 2
        if x < a.getD mid 0 then bisectRightLoop a x fuel lo mid
        else bisectRightLoop a x fuel (mid + 1) hi
      else lo

/-- `bisect.bisect_right(a, x, lo=lo)`. -/
def bisectRightFrom (a : List ℤ) (x : ℤ) (lo : ℕ) : ℕ :=
  bisectRightLoop a x (a.length + 1) lo a.length

/-- Abstract environment for `Timer.check`: the Python stdlib calendar
accessors on day numbers and the data feed's session-end oracle, modelled
from the spec since their implementations live outside the given sources. -/
structure TimerEnv where
  month : ℤ → ℤ
  day : ℤ → ℤ
  isoweek : ℤ → ℤ
  isoweekday : ℤ → ℤ
  eosData : ℤ → ℤ

/-- The `Timer` parameters reached by `check`, after `start()` resolved
`_rstwhen` (held in `whenP`, a time of day in microseconds).  `rep = 0`
models an unset (falsy) `repeat` timedelta. -/
structure TimerParams where
  whenP : ℤ
  offset : ℤ
  rep : ℤ
  monthdays : List ℤ
  monthcarry : Bool
  weekdays : List ℤ
  weekcarry : Bool
  allow : Option (ℤ → Bool)
  isdata : Bool

/-- The mutable state of a `Timer`: `_when`, `_dtwhen`, `_dwhen`,
`_lastcall` (`none` models the `datetime.min` sentinel, which no real date
compares equal to), `_nexteos`, `_curdate`, `_curmonth` / `_monthmask`,
`_curweek` / `_weekmask`, and `lastwhen`. -/
structure TimerState where
  whenT : ℤ
  dtwhen : Option ℤ
  dwhen : Option ℤ
  lastcall : Option ℤ
  nexteos : ℤ
  curdate : ℤ
  curmonth : ℤ
  monthmask : List ℤ
  curweek : ℤ
  weekmask : List ℤ
  lastwhen : Option ℤ
deriving DecidableEq, Repr

/-- `Timer._reset_when(ddate)`: `_when = _rstwhen`, clear `_dtwhen` and
`_dwhen`, record `_lastcall = ddate` (with `none` for the default
`datetime.min`). -/
def resetWhen (p : TimerParams) (s : TimerState) (dd : Option ℤ) : TimerState :=
  { s with whenT := p.whenP, dtwhen := none, dwhen := none, lastcall := dd }

/-- `Timer._check_month(ddate)`: month-of-days filtering with the
carry-over deque, transcribed with its `bisect` calls. -/
def checkMonth (env : TimerEnv) (p : TimerParams) (s : TimerState) (ddate : ℤ) :
    Bool × TimerState :=
  if p.monthdays = [] then (true, s)
  else
    let dmonth := env.month ddate
    let reinit := dmonth ≠ s.curmonth
    let daycarry0 := if reinit then p.monthcarry && !s.monthmask.isEmpty else false
    let curmonth1 := if reinit then dmonth else s.curmonth
    let mask0 := if reinit then p.monthdays else s.monthmask
    let dday := env.day ddate
    let dc := bisectLeft mask0 dday
    let daycarry := daycarry0 || (p.monthcarry && decide (0 < dc))
    let curday := if dc < mask0.length
      then decide (0 < bisectRightFrom mask0 dday dc) else false
    let dc2 := if dc < mask0.length then dc + (if curday then 1 else 0) else dc
    (daycarry || curday, { s with curmonth := curmonth1, monthmask := mask0.drop dc2 })

/-- `Timer._check_week(ddate)`: weekday filtering with the carry-over
deque, transcribed with its `bisect` calls. -/
def checkWeek (env : TimerEnv) (p : TimerParams) (s : TimerState) (ddate : ℤ) :
    Bool × TimerState :=
  if p.weekdays = [] then (true, s)
  else
    let dweek := env.isoweek ddate
    let dwkday := env.isoweekday ddate
    let reinit := dweek ≠ s.curweek
    let daycarry0 := if reinit then p.weekcarry && !s.weekmask.isEmpty else false
    let curweek1 := if reinit then dweek else s.curweek
    let mask0 := if reinit then p.weekdays else s.weekmask
    let dc := bisectLeft mask0 dwkday
    let daycarry := daycarry0 || (p.weekcarry && decide (0 < dc))
    let curday := if dc < mask0.length
      then decide (0 < bisectRightFrom mask0 dwkday dc) else false
    let dc2 := if dc < mask0.length then dc + (if curday then 1 else 0) else dc
    (daycarry || curday, { s with curweek := curweek1, weekmask := mask0.drop dc2 })

/-- The `while True` loop of the repeating branch of `Timer.check`
(`dwhen += repeat` until past the session end or past the current time),
with structural fuel; `check` supplies fuel exceeding the iteration count
for any positive `repeat`. -/
def repeatLoop (p : TimerParams) (ddate d nexteos : ℤ) :
    ℤ → TimerState → ℕ → TimerState
  | _, s, 0 => s
  | dwhen, s, fuel + 1 =>
      let dwhen1 := dwhen + p.rep
      if dwhen1 > nexteos then resetWhen p s (some ddate)
      else if dwhen1 > d then { s with dtwhen := some dwhen1, dwhen := some dwhen1 }
      else repeatLoop p ddate d nexteos dwhen1 s fuel

/-- The session-end / reset prologue of `Timer.check`:
`if d > self._nexteos:` fetch the next end-of-session (from the data feed
when `_isdata`, else the end of the current day), store it and
`_reset_when()` (which leaves `_lastcall` at the `datetime.min`
sentinel). -/
def checkEos (env : TimerEnv) (p : TimerParams) (s : TimerState) (dt : ℤ) :
    TimerState :=
  if dt > s.nexteos then
    resetWhen p
      { s with nexteos :=
          if p.isdata then env.eosData dt else combine (dateOf dt) TIMEMAX }
      none
  else s

/-- The date-change filter of `Timer.check`: on a new calendar date run
`_check_month`, `_check_week` and the `allow` callback; when any of them
rejects, `_reset_when(ddate)` and report `False`. -/
def checkStage2 (env : TimerEnv) (p : TimerParams) (s1 : TimerState)
    (ddate : ℤ) : Bool × TimerState :=
  if ddate > s1.curdate then
    let s1a := { s1 with curdate := ddate }
    let m := checkMonth env p s1a ddate
    let w := if m.1 then checkWeek env p m.2 ddate else m
    let ret := if w.1 then (match p.allow with
                            | some f => f ddate
                            | none => true)
               else w.1
    if ret then (true, w.2) else (false, resetWhen p w.2 (some ddate))
  else (true, s1)

/-- The tail of `Timer.check` once `_dwhen` / `_dtwhen` are materialized:
report `False` while `dt < dtwhen`, otherwise record `lastwhen` and either
`_reset_when(ddate)` (non-repeating) or walk the repeat loop. -/
def checkFireTail (env : TimerEnv) (p : TimerParams) (s3 : TimerState)
    (dt : ℤ) : Bool × TimerState :=
  let d := dt
  let ddate := dateOf dt
  if dt < s3.dtwhen.getD 0 then (false, s3)
  else
    let dwhen := s3.dwhen.getD 0
    let s4 := { s3 with lastwhen := some dwhen }
    if p.rep = 0 then (true, resetWhen p s4 (some ddate))
    else
      let nexteos1 :=
        if d > s4.nexteos then
          (if p.isdata then env.eosData d else combine ddate TIMEMAX)
        else s4.nexteos
      let s5 := { s4 with nexteos := nexteos1 }
      (true, repeatLoop p ddate d nexteos1 dwhen s5
        ((nexteos1 - dwhen).toNat + (d - dwhen).toNat + 2))

/-- The firing half of `Timer.check`: materialize `_dwhen` / `_dtwhen`
(`datetime.combine(ddate, self._when)` plus the offset) when absent, then
run the firing tail. -/
def checkFire (env : TimerEnv) (p : TimerParams) (s2 : TimerState)
    (dt : ℤ) : Bool × TimerState :=
  checkFireTail env p
    (match s2.dtwhen with
     | some _ => s2
     | none =>
         { s2 with dwhen := some (combine (dateOf dt) s2.whenT + p.offset),
                   dtwhen := some (combine (dateOf dt) s2.whenT + p.offset) })
    dt

/-- `Timer.check(dt)`: transcription of the full method on the model time
axis (`d = num2date(dt)` and `date2num` are the identity there); returns
the fire decision and the updated timer state.  The repeat loop's fuel
strictly exceeds its iteration count for any positive `repeat`
timedelta. -/
def Timer.check (env : TimerEnv) (p : TimerParams) (s : TimerState)
    (dt : ℤ) : Bool × TimerState :=
  if s.lastcall = some (dateOf dt) then (false, s)
  else
    if (checkStage2 env p (checkEos env p s dt) (dateOf dt)).1 = false then
      (false, (checkStage2 env p (checkEos env p s dt) (dateOf dt)).2)
    else
      checkFire env p (checkStage2 env p (checkEos env p s dt) (dateOf dt)).2 dt

/-! ### Helper lemmas about the buffer operations -/

namespace LineState

theorem set_idx_lencount (c : LineState) (i : ℤ) (f : Bool) :
    (c.set_idx i f).lencount = c.lencount := by
  unfold set_idx
  split
  · split <;> rfl
  · rfl

theorem set_idx_array (c : LineState) (i : ℤ) (f : Bool) :
    (c.set_idx i f).array = c.array := by
  unfold set_idx
  split
  · split <;> rfl
  · rfl

theorem appendVal_lencount (c : LineState) (v : Val) :
    (c.appendVal v).lencount = c.lencount := by
  unfold appendVal
  split
  · split <;> rfl
  · rfl

theorem appendVal_idx (c : LineState) (v : Val) :
    (c.appendVal v).idx = c.idx := by
  unfold appendVal
  split
  · split <;> rfl
  · rfl

theorem appendN_lencount (c : LineState) (v : Val) (n : ℕ) :
    (c.appendN v n).lencount = c.lencount := by
  induction n generalizing c with
  | zero => rfl
  | succ n ih => simp [appendN, ih, appendVal_lencount]

theorem appendN_idx (c : LineState) (v : Val) (n : ℕ) :
    (c.appendN v n).idx = c.idx := by
  induction n generalizing c with
  | zero => rfl
  | succ n ih => simp [appendN, ih, appendVal_idx]

theorem popN_lencount (c : LineState) (n : ℕ) :
    (c.popN n).lencount = c.lencount := by
  induction n generalizing c with
  | zero => rfl
  | succ n ih => simp [popN, popVal, ih]

theorem popN_idx (c : LineState) (n : ℕ) :
    (c.popN n).idx = c.idx := by
  induction n generalizing c with
  | zero => rfl
  | succ n ih => simp [popN, popVal, ih]

theorem forward_lencount (c : LineState) (v : Val) (n : ℕ) :
    (c.forward v n).lencount = c.lencount + n := by
  unfold forward
  simp [appendN_lencount, set_idx_lencount]

theorem backwards_lencount (c : LineState) (n : ℕ) (f : Bool) :
    (c.backwards n f).lencount = c.lencount - n := by
  unfold backwards
  simp [popN_lencount, set_idx_lencount]

theorem setAt_lencount (c : LineState) (ago : ℤ) (v : Val) :
    (c.setAt ago v).lencount = c.lencount := rfl

theorem setAt_idx (c : LineState) (ago : ℤ) (v : Val) :
    (c.setAt ago v).idx = c.idx := rfl

/-- In `UnBounded` mode, `n` appends grow the backing list by `n` copies. -/
theorem appendN_unbounded (c : LineState) (v : Val) (n : ℕ)
    (h : c.mode = .UnBounded) :
    c.appendN v n = { c with array := c.array ++ List.replicate n v } := by
  induction n generalizing c with
  | zero => simp [appendN]
  | succ n ih =>
      have h1 : c.appendVal v = { c with array := c.array ++ [v] } := by
        unfold appendVal; rw [h]
      rw [appendN, h1, ih _ (by simp [h])]
      simp [List.replicate_succ]

/-- `n` pops undo `n` appends. -/
theorem popN_append_replicate (c : LineState) (l : List Val) (v : Val) (n : ℕ)
    (h : c.array = l ++ List.replicate n v) :
    c.popN n = { c with array := l } := by
  induction n generalizing c with
  | zero => simp at h; simp [popN, ← h]
  | succ n ih =>
      rw [popN]
      have h1 : c.popVal = { c with array := l ++ List.replicate n v } := by
        unfold popVal
        rw [h, List.replicate_succ', ← List.append_assoc, List.dropLast_concat]
      rw [h1, ih _ rfl]

end LineState

/-! ### C5 — minimum-period arithmetic -/

/-- C5: for a `LineSingle` with minimum period `m`, `addminperiod(n)`
leaves the minimum period at `m + n - 1` (overlapping-period convention)
and `incminperiod(n)` leaves it at `m + n`. -/
theorem minperiod_arithmetic (c : LineState) (n : ℤ) :
    (c.addminperiod n).minperiod = c.minperiod + n - 1 ∧
    (c.incminperiod n).minperiod = c.minperiod + n :=
  ⟨rfl, rfl⟩

/-! ### C10 — forward/backwards round trip on an unbounded buffer -/

/-- C10: on an `UnBounded` buffer, `forward(v, n)` followed by
`backwards(n)` restores the whole state — `idx`, `lencount` and the backing
array are exactly as before. -/
theorem forward_backwards_roundtrip (c : LineState) (v : Val) (n : ℕ)
    (h : c.mode = .UnBounded) :
    (c.forward v n).backwards n false = c := by
  obtain ⟨mode, arr, idx, len, ext, mp, ml, es, lm⟩ := c
  subst h
  unfold LineState.forward LineState.backwards LineState.set_idx
  simp only []
  rw [LineState.appendN_unbounded _ _ _ rfl]
  simp only []
  rw [LineState.popN_append_replicate _ arr v n rfl]
  simp

/-- Witness for C10 at a concrete buffer. -/
theorem forward_backwards_roundtrip_witness :
    ((LineState.init.forward (some 7) 3).backwards 3 false = LineState.init) ∧
    LineState.init.mode = Mode.UnBounded :=
  ⟨forward_backwards_roundtrip LineState.init (some 7) 3 rfl, rfl⟩

/-! ### More helper lemmas: unbounded forward, list lookups -/

theorem forward_unbounded (c : LineState) (v : Val) (n : ℕ)
    (hm : c.mode = .UnBounded) :
    c.forward v n = { c with idx := c.idx + n, lencount := c.lencount + n,
                             array := c.array ++ List.replicate n v } := by
  obtain ⟨mode, arr, idx, len, ext, mp, ml, es, lm⟩ := c
  simp only [] at hm
  subst hm
  unfold LineState.forward LineState.set_idx
  simp only []
  rw [LineState.appendN_unbounded _ _ _ rfl]

theorem getq_getD (l : List Val) (n : ℕ) (h : n < l.length) :
    l.get? n = some (l.getD n none) := by
  induction l generalizing n with
  | nil => simp at h
  | cons a t ih =>
      cases n with
      | zero => rfl
      | succ m => simpa using ih m (by simpa using h)

theorem getq_append_right (l r : List Val) (n : ℕ) :
    (l ++ r).get? (l.length + n) = r.get? n := by
  induction l with
  | nil => simp
  | cons a t ih => simpa [Nat.succ_add] using ih

theorem getq_replicate (m n : ℕ) (w : Val) (h : n < m) :
    (List.replicate m w).get? n = some w := by
  induction m generalizing n with
  | zero => omega
  | succ m ih =>
      cases n with
      | zero => rfl
      | succ k => simpa [List.replicate_succ] using ih k (by omega)

/-! ### C6 — pinned index in bounded (QBuffer) mode -/

/-- C6: in `QBuffer` mode, once the buffer has filled to capacity and the
index has reached `lenmark`, `set_idx` without force refuses to move the
index, so a further `forward()` leaves `idx` pinned while the ring rotates
(oldest value evicted, `lencount` still growing) and re-establishes the
same situation; `set_idx` with `force=True` does move the index. -/
theorem qbuffer_pinned_forward (c : LineState) (v : Val) (j : ℤ)
    (hm : c.mode = .QBuffer)
    (hpin : ¬ c.idx < c.lenmark)
    (hcap : (c.array.length : ℤ) = c.maxlen + c.extrasize)
    (hne : c.array ≠ []) :
    (c.forward v 1).idx = c.idx ∧
    (c.forward v 1).lencount = c.lencount + 1 ∧
    (c.forward v 1).array = c.array.tail ++ [v] ∧
    (c.forward v 1).mode = Mode.QBuffer ∧
    ¬ (c.forward v 1).idx < (c.forward v 1).lenmark ∧
    (((c.forward v 1).array.length : ℤ)
        = (c.forward v 1).maxlen + (c.forward v 1).extrasize) ∧
    (c.set_idx j false).idx = c.idx ∧
    (c.set_idx j true).idx = j := by
  obtain ⟨mode, arr, idx, len, ext, mp, ml, es, lm⟩ := c
  simp only [] at hm hpin hcap hne
  subst hm
  have hlp : 1 ≤ arr.length := List.length_pos.mpr hne
  unfold LineState.forward LineState.set_idx LineState.appendN
      LineState.appendN LineState.appendVal
  simp [hpin, hcap]
  omega

/-- The concrete full ring buffer used to witness C6. -/
def c6example : LineState :=
  { mode := Mode.QBuffer, array := [some 1, some 2], idx := 1, lencount := 5,
    extension := 0, minperiod := 2, maxlen := 2, extrasize := 0, lenmark := 1 }

/-- Witness for C6 at a concrete full ring buffer. -/
theorem qbuffer_pinned_forward_witness :
    c6example.mode = Mode.QBuffer ∧
    (c6example.forward (some 3) 1).idx = c6example.idx ∧
    (c6example.forward (some 3) 1).array = c6example.array.tail ++ [some 3] ∧
    (c6example.set_idx 5 true).idx = 5 :=
  ⟨rfl,
   (qbuffer_pinned_forward c6example (some 3) 5 rfl (by decide) (by decide)
      (by decide)).1,
   (qbuffer_pinned_forward c6example (some 3) 5 rfl (by decide) (by decide)
      (by decide)).2.2.1,
   (qbuffer_pinned_forward c6example (some 3) 5 rfl (by decide) (by decide)
      (by decide)).2.2.2.2.2.2.2⟩

/-! ### C1 — element access and the physical slot -/

/-- A buffer built by two `forward` + assignment steps and one `extend`:
backing array `[10, 20, 30]`, cursor at slot 1 (the current bar `20`, with
`30` a future slot reached by extension). -/
def c1example : LineState :=
  ((((LineState.init.forward none 1).setAt 0 (some 10)).forward
      none 1).setAt 0 (some 20)).extend (some 30) 1

/-- Counterexample to C1 as stated: the claim reads `buf[ago]` from the
physical slot `idx - ago` (positive `ago` in the past); on the code,
`__getitem__` reads `self.array[self.idx + ago]`, so at `ago = 1` the
example buffer yields the future slot `30`, not the past slot `10` that
`idx - ago` holds. -/
theorem getitem_counterexample :
    c1example.getitem 1 = some (some 30) ∧
    pyGet c1example.array (c1example.idx - 1) = some (some 10) ∧
    c1example.getitem 1 ≠ pyGet c1example.array (c1example.idx - 1) := by
  decide

/-- In-range reads of `pyGet` are plain list lookups. -/
theorem pyGet_inrange (l : List Val) (i : ℤ) (h0 : 0 ≤ i)
    (hl : i < (l.length : ℤ)) :
    pyGet l i = l.get? i.toNat := by
  unfold pyGet pyIndex
  rw [if_pos ⟨h0, hl⟩]
  rfl

/-- Setting the freshly appended last slot. -/
theorem set_append_last (l : List Val) (a v : Val) :
    (l ++ [a]).set l.length v = l ++ [v] := by
  induction l with
  | nil => rfl
  | cons x xs ih => simp [List.set, ih]

/-- An in-place write through `setAt 0` when the cursor sits on the last
slot. -/
theorem setAt_last (c : LineState) (l : List Val) (a v : Val)
    (harr : c.array = l ++ [a]) (hidx : c.idx = (l.length : ℤ)) :
    c.setAt 0 v = { c with array := l ++ [v] } := by
  unfold LineState.setAt pySet pyIndex
  rw [harr, hidx]
  have h1 : (0 : ℤ) ≤ (l.length : ℤ) + 0 ∧
      (l.length : ℤ) + 0 < (((l ++ [a]).length : ℕ) : ℤ) := by
    constructor
    · omega
    · simp
  rw [if_pos h1]
  have h2 : ((l.length : ℤ) + 0).toNat = l.length := by omega
  simp only [h2, set_append_last]

/-- A whole per-bar run on an unbounded buffer: each bar does
`forward()` then assigns the bar's value at `ago = 0`. -/
def buildRun (vs : List Val) : LineState :=
  vs.foldl (fun c v => (c.forward none 1).setAt 0 v) LineState.init

/-- One `forward()` + assignment step under the unbounded-run invariant
`idx = len(array) - 1`. -/
theorem buildRun_step (c : LineState) (v : Val) (hm : c.mode = .UnBounded)
    (hidx : c.idx = (c.array.length : ℤ) - 1) :
    (c.forward none 1).setAt 0 v
      = { c with array := c.array ++ [v], idx := c.idx + 1,
                 lencount := c.lencount + 1 } := by
  rw [forward_unbounded c none 1 hm]
  rw [setAt_last _ c.array none v (by simp [List.replicate]) (by simp; omega)]
  simp

/-- Invariant characterization of `buildRun`. -/
theorem buildRun_inv (vs : List Val) : ∀ (c : LineState),
    c.mode = .UnBounded → c.idx = (c.array.length : ℤ) - 1 →
    (vs.foldl (fun c v => (c.forward none 1).setAt 0 v) c).array
        = c.array ++ vs ∧
    (vs.foldl (fun c v => (c.forward none 1).setAt 0 v) c).idx
        = c.idx + vs.length ∧
    (vs.foldl (fun c v => (c.forward none 1).setAt 0 v) c).mode
        = Mode.UnBounded ∧
    (vs.foldl (fun c v => (c.forward none 1).setAt 0 v) c).extension
        = c.extension := by
  induction vs with
  | nil => intro c hm hidx; simp [hm]
  | cons v vs ih =>
      intro c hm hidx
      rw [List.foldl_cons, buildRun_step c v hm hidx]
      have hmo2 : ({ c with array := c.array ++ [v], idx := c.idx + 1, lencount := c.lencount + 1 } : LineState).mode = Mode.UnBounded := by
        simpa using hm
      have hix2 : ({ c with array := c.array ++ [v], idx := c.idx + 1, lencount := c.lencount + 1 } : LineState).idx = ((({ c with array := c.array ++ [v], idx := c.idx + 1, lencount := c.lencount + 1 } : LineState)).array.length : ℤ) - 1 := by
        simp
        omega
      obtain ⟨ha, hi, hmo, he⟩ := ih _ hmo2 hix2
      refine ⟨?_, ?_, hmo, by simpa using he⟩
      · rw [ha]; simp
      · rw [hi]; simp; omega

/-- The fields of `buildRun` itself. -/
theorem buildRun_spec (vs : List Val) :
    (buildRun vs).array = vs ∧ (buildRun vs).idx = (vs.length : ℤ) - 1 ∧
    (buildRun vs).mode = Mode.UnBounded ∧ (buildRun vs).extension = 0 := by
  have h := buildRun_inv vs LineState.init rfl rfl
  simpa [buildRun, LineState.init, LineState.reset, LineState.set_idx]
    using h

/-- C1 (amended): `buf[ago]` returns the physical slot `idx + ago` —
after a per-bar run pushing `vs`, `ago = 0` reads the current (last) bar
and `ago = -k` reads the bar `k` steps in the past; positive `ago` reads
future slots created by `extend`. -/
theorem getitem_physical_slot (vs : List Val) (w : Val) (m k j : ℕ)
    (hk : k < vs.length) (hj1 : 1 ≤ j) (hjm : j ≤ m) :
    (buildRun vs).getitem (-(k : ℤ)) = some (vs.getD (vs.length - 1 - k) none) ∧
    ((buildRun vs).extend w m).getitem (j : ℤ) = some w := by
  obtain ⟨ha, hi, hm, he⟩ := buildRun_spec vs
  constructor
  · unfold LineState.getitem
    rw [ha, hi]
    rw [pyGet_inrange _ _ (by omega) (by omega)]
    have ht : ((vs.length : ℤ) - 1 + -(k : ℤ)).toNat = vs.length - 1 - k := by
      omega
    rw [ht]
    exact getq_getD vs _ (by omega)
  · unfold LineState.extend
    have hmo : ({ buildRun vs with
        extension := (buildRun vs).extension + m } : LineState).mode
        = Mode.UnBounded := by simpa using hm
    rw [LineState.appendN_unbounded _ _ _ hmo]
    unfold LineState.getitem
    simp only [ha, hi]
    rw [pyGet_inrange _ _ (by omega) (by simp; omega)]
    have ht : ((vs.length : ℤ) - 1 + (j : ℤ)).toNat
        = vs.length + (j - 1) := by omega
    rw [ht, getq_append_right]
    exact getq_replicate m (j - 1) w (by omega)

/-- Witness for the amended C1 at a concrete run. -/
theorem getitem_physical_slot_witness :
    (1 < 3 ∧ 1 ≤ 2 ∧ 2 ≤ 2) ∧
    (buildRun [some 10, some 20, some 30]).getitem (-(1 : ℤ))
        = some (some 20) ∧
    ((buildRun [some 10, some 20, some 30]).extend (some 9) 2).getitem
        ((2 : ℕ) : ℤ) = some (some 9) :=
  ⟨by omega,
   (getitem_physical_slot [some 10, some 20, some 30] (some 9) 2 1 2
      (by decide) (by decide) (by decide)).1,
   (getitem_physical_slot [some 10, some 20, some 30] (some 9) 2 1 2
      (by decide) (by decide) (by decide)).2⟩

/-! ### C4 — write-through bindings -/

theorem setitem_eq (c : LineState) (bs : List LineBuffer) (ago : ℤ) (v : Val) :
    (LineBuffer.mk c bs).setitem ago v
      = .mk (c.setAt ago v) (LineBuffer.setitemAll bs ago v) := by
  simp [LineBuffer.setitem]

theorem setitemAll_mem (bs : List LineBuffer) (ago : ℤ) (v : Val)
    (b2 : LineBuffer) (h : b2 ∈ LineBuffer.setitemAll bs ago v) :
    ∃ b ∈ bs, b2 = b.setitem ago v := by
  induction bs with
  | nil => simp [LineBuffer.setitemAll] at h
  | cons b bs ih =>
      rw [LineBuffer.setitemAll] at h
      rcases List.mem_cons.mp h with h1 | h2
      · exact ⟨b, by simp, h1⟩
      · obtain ⟨b3, hb3, hb2⟩ := ih h2
        exact ⟨b3, by simp [hb3], hb2⟩

theorem getq_set_self (l : List Val) (n : ℕ) (v : Val) (h : n < l.length) :
    (l.set n v).get? n = some v := by
  induction l generalizing n with
  | nil => simp at h
  | cons a t ih =>
      cases n with
      | zero => rfl
      | succ m => simpa [List.set] using ih m (by simpa using h)

theorem pyGet_pySet_self (l : List Val) (i : ℤ) (v : Val)
    (h0 : 0 ≤ i) (hl : i < (l.length : ℤ)) :
    pyGet (pySet l i v) i = some v := by
  have hidx : pyIndex l.length i = some i.toNat := by
    unfold pyIndex; rw [if_pos ⟨h0, hl⟩]
  have hps : pySet l i v = l.set i.toNat v := by
    unfold pySet; rw [hidx]
  rw [hps]
  unfold pyGet
  have hlen : (l.set i.toNat v).length = l.length := by simp
  rw [hlen, hidx]
  exact getq_set_self l i.toNat v (by omega)

/-- C4: bindings are write-through — after `buf[ago] = v`, every line in
`buf`'s bindings list reads back `v` at the same offset `ago` (assuming the
slot `idx + ago` exists on each bound line, i.e. the access is defined). -/
theorem binding_writethrough (buf : LineBuffer) (ago : ℤ) (v : Val)
    (h : ∀ b ∈ buf.bindings, 0 ≤ b.core.idx + ago ∧
          b.core.idx + ago < (b.core.array.length : ℤ)) :
    ∀ b2 ∈ (buf.setitem ago v).bindings, b2.getitem ago = some v := by
  cases buf with
  | mk c bs =>
      intro b2 hb2
      rw [setitem_eq] at hb2
      simp only [LineBuffer.bindings] at hb2
      obtain ⟨b, hb, rfl⟩ := setitemAll_mem bs ago v b2 hb2
      obtain ⟨h0, hl⟩ := h b (by simpa [LineBuffer.bindings] using hb)
      cases b with
      | mk cb bsb =>
          rw [setitem_eq]
          unfold LineBuffer.getitem LineBuffer.core LineState.getitem
          unfold LineState.setAt at *
          simp only [] at h0 hl ⊢
          have hlen : (pySet cb.array (cb.idx + ago) v).length
              = cb.array.length := by
            unfold pySet
            cases hpi : pyIndex cb.array.length (cb.idx + ago) with
            | none => rfl
            | some k => simp
          exact pyGet_pySet_self cb.array (cb.idx + ago) v h0 hl

/-- A line state holding one bar, used in the C4 witness. -/
def c4cell : LineState :=
  { mode := Mode.UnBounded, array := [none], idx := 0, lencount := 1,
    extension := 0, minperiod := 1, maxlen := 0, extrasize := 0, lenmark := 0 }

/-- A buffer with two bindings (one of them itself bound), for the C4
witness. -/
def c4buf : LineBuffer :=
  .mk c4cell [.mk c4cell [.mk c4cell []], .mk c4cell []]

/-- Witness for C4 at a concrete bound buffer. -/
theorem binding_writethrough_witness :
    (∀ b ∈ c4buf.bindings, 0 ≤ b.core.idx + 0 ∧
        b.core.idx + 0 < (b.core.array.length : ℤ)) ∧
    (∀ b2 ∈ (c4buf.setitem 0 (some 42)).bindings,
        b2.getitem 0 = some (some 42)) :=
  ⟨by decide, binding_writethrough c4buf 0 (some 42) (by decide)⟩

/-! ### C2 — the per-bar dispatch and the minimum period -/

/-- Counterexample to C2 as stated: at `clock_len = 0 < min_period = 1`
the claim requires a `prenext()` dispatch, but `LineIterator._next`
(`elif clock_len:`) dispatches none of the three hooks. -/
theorem dispatch_zero_counterexample :
    (0 : ℤ) < 1 ∧ lineIteratorDispatch 0 1 ≠ NAction.callPrenext ∧
    lineIteratorDispatch 0 1 = NAction.nothing := by decide

/-- C2 (amended): `LineIterator._next` dispatches `next()` exactly when
`clock_len > min_period`, `nextstart()` exactly when
`clock_len == min_period`, `prenext()` when `0 < clock_len < min_period`,
and nothing at all when `clock_len == 0`; `LineActions._next` dispatches
`prenext()` for every `clock_len < min_period` (including zero).  In
particular neither dispatcher ever invokes `next()` before the clock length
exceeds the minimum period. -/
theorem dispatch_amended (c mp : ℤ) (hmp : 1 ≤ mp) :
    (c > mp → lineIteratorDispatch c mp = NAction.callNext) ∧
    (lineIteratorDispatch c mp = NAction.callNextstart ↔ c = mp) ∧
    (0 < c → c < mp → lineIteratorDispatch c mp = NAction.callPrenext) ∧
    (c = 0 → lineIteratorDispatch c mp = NAction.nothing) ∧
    (lineIteratorDispatch c mp = NAction.callNext → mp < c) ∧
    (c < mp → lineActionsDispatch c mp = NAction.callPrenext) ∧
    (lineActionsDispatch c mp = NAction.callNextstart ↔ c = mp) ∧
    (lineActionsDispatch c mp = NAction.callNext ↔ mp < c) := by
  unfold lineIteratorDispatch lineActionsDispatch
  split_ifs <;> simp_all <;> omega

/-- Witness for the amended C2 at `clock_len = 3`, `min_period = 2`. -/
theorem dispatch_amended_witness :
    (1 ≤ (2 : ℤ)) ∧
    (((3 : ℤ) > 2 → lineIteratorDispatch 3 2 = NAction.callNext) ∧
     (lineIteratorDispatch 3 2 = NAction.callNextstart ↔ (3 : ℤ) = 2) ∧
     ((0 : ℤ) < 3 → (3 : ℤ) < 2 →
        lineIteratorDispatch 3 2 = NAction.callPrenext) ∧
     ((3 : ℤ) = 0 → lineIteratorDispatch 3 2 = NAction.nothing) ∧
     (lineIteratorDispatch 3 2 = NAction.callNext → (2 : ℤ) < 3) ∧
     ((3 : ℤ) < 2 → lineActionsDispatch 3 2 = NAction.callPrenext) ∧
     (lineActionsDispatch 3 2 = NAction.callNextstart ↔ (3 : ℤ) = 2) ∧
     (lineActionsDispatch 3 2 = NAction.callNext ↔ (2 : ℤ) < 3)) :=
  ⟨by norm_num, dispatch_amended 3 2 (by norm_num)⟩

/-! ### C8 — clock synchronization: accept, rewind, replayers -/

/-- Counterexample to C8 as stated: a replaying feed whose delivered
datetime exceeds `dt0` is *not* kept — `rpi = False and di.replaying` is
identically false, so `Cerebro._runnext` rewinds it like any other feed. -/
theorem replaying_rewound_counterexample :
    ((5 : ℚ) > 4) ∧ runnextAdjust (some 5) 4 true = AdjustAction.rewindBar ∧
    runnextAdjust (some 5) 4 true ≠ AdjustAction.keep := by decide

/-- C8 (amended): in the synchronizer, a delivered bar with datetime
`> dt0` is rewound one bar in every case (replayer or not — the replayer
exemption is dead code); a bar with datetime `≤ dt0` is accepted, with a
forced tick-fill unless the feed is replaying; and the retried
`next(datamaster)` call itself accepts a loaded bar `≤ dt0` and rewinds a
loaded bar `> dt0`, returning `False`. -/
theorem runnext_sync (d dt0 : ℚ) (repl : Bool) (fs : FeedState) :
    (d > dt0 → runnextAdjust (some d) dt0 repl = AdjustAction.rewindBar) ∧
    (¬ d > dt0 → runnextAdjust (some d) dt0 repl
        = (if repl then AdjustAction.keep else AdjustAction.tickfill)) ∧
    (runnextAdjust none dt0 repl = AdjustAction.keep) ∧
    ((load fs).1 = LoadRet.yes →
      ∀ q, pyGetD (load fs).2.buf.array (load fs).2.buf.idx = some q →
        (q > dt0 → nextWithMaster fs dt0
            = (.over, { (load fs).2 with buf := (load fs).2.buf.rewind 1 })) ∧
        (¬ q > dt0 → nextWithMaster fs dt0 = (.yes, (load fs).2))) := by
  refine ⟨?_, ?_, rfl, ?_⟩
  · intro h
    unfold runnextAdjust
    simp [h]
  · intro h
    unfold runnextAdjust
    cases repl <;> simp [h]
  · intro hy q hq
    constructor <;> intro h <;> simp [nextWithMaster, hy, hq, h]

/-- The concrete feed used in the C8 witness: one source bar at time 3. -/
def c8feed : FeedState :=
  { buf := LineState.init, barstack := [], barstash := [],
    src := [.bar (some 3)], fromdate := 0, todate := 10 }

/-- Witness for the amended C8. -/
theorem runnext_sync_witness :
    ((5 : ℚ) > 4) ∧
    runnextAdjust (some 5) 4 false = AdjustAction.rewindBar ∧
    (load c8feed).1 = LoadRet.yes ∧
    nextWithMaster c8feed 4 = (LoadRet.yes, (load c8feed).2) :=
  ⟨by norm_num, (runnext_sync 5 4 false c8feed).1 (by norm_num),
   by decide,
   ((runnext_sync 5 4 false c8feed).2.2.2 (by decide) 3 (by decide)).2
     (by norm_num)⟩

/-! ### C7 — the feed load protocol -/

/-- The invariant established by every run of the `load` loop: exact
length accounting per result, preserved date window, and (for stack-free
feeds) window membership of any delivered non-`NAN` datetime. -/
def LoadInv (fs : FeedState) (r : LoadRet × FeedState) : Prop :=
  r.2.buf.lencount
      = fs.buf.lencount + (if r.1 = LoadRet.yes then 1 else 0) ∧
  r.2.fromdate = fs.fromdate ∧
  r.2.todate = fs.todate ∧
  (r.1 = LoadRet.yes → fs.barstack = [] →
    ∀ q, pyGetD r.2.buf.array r.2.buf.idx = some q →
      ¬ q < fs.fromdate ∧ ¬ q > fs.todate)

/-- The same invariant for the date-check + resume fragment, relative to
the state that has already done the iteration's `forward()`. -/
def ResumeInv (fs1 : FeedState) (r : LoadRet × FeedState) : Prop :=
  r.2.buf.lencount
      = fs1.buf.lencount - 1 + (if r.1 = LoadRet.yes then 1 else 0) ∧
  r.2.fromdate = fs1.fromdate ∧
  r.2.todate = fs1.todate ∧
  (r.1 = LoadRet.yes →
    ∀ q, pyGetD r.2.buf.array r.2.buf.idx = some q →
      ¬ q < fs1.fromdate ∧ ¬ q > fs1.todate)

/-- The date-check + resume fragment satisfies `ResumeInv` whenever every
continuation run satisfies `LoadInv`. -/
theorem loadResume_spec (fuel : ℕ)
    (ih : ∀ fs : FeedState, LoadInv fs (loadLoop fs fuel))
    (fs1 : FeedState) (hbs : fs1.barstack = []) :
    ResumeInv fs1
      (loadStep (loadCheckDates fs1) (fun fs2 => loadLoop fs2 fuel)) := by
  unfold ResumeInv loadCheckDates
  cases hq : pyGetD fs1.buf.array fs1.buf.idx with
  | none =>
      dsimp only
      refine ⟨by simp [loadStep], by simp [loadStep], by simp [loadStep], ?_⟩
      intro _ q hq2
      simp only [loadStep] at hq2
      rw [hq] at hq2
      cases hq2
  | some qv =>
      dsimp only
      by_cases h1 : qv < fs1.fromdate
      · rw [if_pos h1]
        simp only [loadStep]
        have h := ih { fs1 with buf := fs1.buf.backwards 1 false }
        unfold LoadInv at h
        obtain ⟨hl, hf, ht, hw⟩ := h
        simp only [] at hl hf ht hw
        refine ⟨?_, hf, ht, ?_⟩
        · rw [hl, LineState.backwards_lencount]
          push_cast
          ring
        · intro hy q hq2
          exact hw hy (by simp [hbs]) q hq2
      · rw [if_neg h1]
        by_cases h2 : qv > fs1.todate
        · rw [if_pos h2]
          simp only [loadStep]
          refine ⟨?_, by trivial, by trivial, ?_⟩
          · rw [LineState.backwards_lencount]
            simp
          · intro hy
            cases hy
        · rw [if_neg h2]
          simp only [loadStep]
          refine ⟨by simp, by trivial, by trivial, ?_⟩
          intro _ q hq2
          rw [hq] at hq2
          cases hq2
          exact ⟨h1, h2⟩

/-- Behaviour of every `load` iteration, by induction on the loop fuel. -/
theorem loadLoop_spec (fuel : ℕ) : ∀ fs : FeedState,
    LoadInv fs (loadLoop fs fuel) := by
  induction fuel with
  | zero =>
      intro fs
      unfold LoadInv
      simp [loadLoop]
  | succ fuel ih =>
      intro fs
      obtain ⟨buf, bstack, bstash, src, fd, td⟩ := fs
      rw [loadLoop]
      dsimp only
      cases bstack with
      | cons b rest =>
          unfold LoadInv
          simp [LineState.setAt_lencount, LineState.forward_lencount]
      | nil =>
          cases bstash with
          | cons b rest =>
              have h := loadResume_spec fuel ih
                ⟨(buf.forward none 1).setAt 0 b, [], rest, src, fd, td⟩ rfl
              unfold ResumeInv at h
              obtain ⟨hl, hf, ht, hw⟩ := h
              simp only [] at hl hf ht hw
              unfold LoadInv
              refine ⟨?_, hf, ht, ?_⟩
              · rw [hl, LineState.setAt_lencount, LineState.forward_lencount]
                push_cast
                ring
              · intro hy _ q hq2
                exact hw hy q hq2
          | nil =>
              cases src with
              | nil =>
                  unfold LoadInv
                  simp [LineState.backwards_lencount,
                    LineState.forward_lencount]
              | cons sr rest =>
                  cases sr with
                  | nobar =>
                      unfold LoadInv
                      simp [LineState.backwards_lencount,
                        LineState.forward_lencount]
                  | finished =>
                      unfold LoadInv
                      simp [LineState.backwards_lencount,
                        LineState.forward_lencount]
                  | bar dt =>
                      have h := loadResume_spec fuel ih
                        ⟨(buf.forward none 1).setAt 0 dt, [], [], rest, fd,
                          td⟩ rfl
                      unfold ResumeInv at h
                      obtain ⟨hl, hf, ht, hw⟩ := h
                      simp only [] at hl hf ht hw
                      unfold LoadInv
                      refine ⟨?_, hf, ht, ?_⟩
                      · rw [hl, LineState.setAt_lencount,
                          LineState.forward_lencount]
                        push_cast
                        ring
                      · intro hy _ q hq2
                        exact hw hy q hq2

/-- Reading back the bar value just written by `forward()` + assignment,
under the unbounded feed invariant `idx = len(array) - 1`. -/
theorem forward_set_read (c : LineState) (w : Val)
    (hm : c.mode = Mode.UnBounded)
    (hix : c.idx = (c.array.length : ℤ) - 1) :
    pyGetD ((c.forward none 1).setAt 0 w).array
      ((c.forward none 1).setAt 0 w).idx = w := by
  rw [forward_unbounded c none 1 hm]
  rw [setAt_last _ c.array none w (by simp [List.replicate]) (by simp; omega)]
  unfold pyGetD
  simp only []
  rw [pyGet_inrange _ _ (by simp; omega) (by simp; omega)]
  have ht : (c.idx + ((1 : ℕ) : ℤ)).toNat = c.array.length := by omega
  rw [ht]
  have h5 : (c.array ++ [w]).get? c.array.length = some w := by
    simp
  rw [h5]
  rfl

/-- A "no bar" source answer makes one `load` iteration undo the pointer
and report `None`. -/
theorem loadLoop_nobar_fst (fs : FeedState) (n : ℕ)
    (hbs : fs.barstack = []) (hsh : fs.barstash = [])
    (rest : List SrcRes) (hsrc : fs.src = SrcRes.nobar :: rest) :
    (loadLoop fs (n + 1)).1 = LoadRet.nores := by
  rw [loadLoop]
  simp [hbs, hsh, hsrc, loadStep]

/-- A source bar past `todate` makes one `load` iteration discard it and
report `False`. -/
theorem loadLoop_over_fst (fs : FeedState) (n : ℕ)
    (hbs : fs.barstack = []) (hsh : fs.barstash = [])
    (dtq : ℚ) (rest : List SrcRes)
    (hsrc : fs.src = SrcRes.bar (some dtq) :: rest)
    (hmu : fs.buf.mode = Mode.UnBounded)
    (hix : fs.buf.idx = (fs.buf.array.length : ℤ) - 1)
    (hfd : ¬ dtq < fs.fromdate) (htd : dtq > fs.todate) :
    (loadLoop fs (n + 1)).1 = LoadRet.over := by
  rw [loadLoop]
  simp only [hbs, hsh, hsrc]
  have hrd := forward_set_read fs.buf (some dtq) hmu hix
  unfold loadCheckDates
  simp [hrd, hfd, htd, loadStep]

/-- C7: each `load` invocation is atomic and produces at most one bar —
the logical length grows by exactly one on `True` and is unchanged on
"no bar" (`None`) and on "done" (`False`); a delivered bar (stack-free
feed, non-`NAN` datetime) always lies inside the `[fromdate, todate]`
window; a source answering "nothing" makes `load` undo the initial
`forward` and report "no bar" with the length unchanged; a source bar past
`todate` is discarded and `load` reports "done" with the length
unchanged. -/
theorem load_protocol (fs : FeedState) :
    ((load fs).2.buf.lencount
        = fs.buf.lencount + (if (load fs).1 = LoadRet.yes then 1 else 0)) ∧
    (fs.barstack = [] → (load fs).1 = LoadRet.yes →
      ∀ q, pyGetD (load fs).2.buf.array (load fs).2.buf.idx = some q →
        fs.fromdate ≤ q ∧ q ≤ fs.todate) ∧
    (fs.barstack = [] → fs.barstash = [] →
      ∀ rest, fs.src = SrcRes.nobar :: rest →
        (load fs).1 = LoadRet.nores ∧
        (load fs).2.buf.lencount = fs.buf.lencount) ∧
    (fs.barstack = [] → fs.barstash = [] →
      fs.buf.mode = Mode.UnBounded →
      fs.buf.idx = (fs.buf.array.length : ℤ) - 1 →
      ∀ dtq rest, fs.src = SrcRes.bar (some dtq) :: rest → dtq > fs.todate →
        ¬ dtq < fs.fromdate →
        (load fs).1 = LoadRet.over ∧
        (load fs).2.buf.lencount = fs.buf.lencount) := by
  unfold load
  have h := loadLoop_spec (fs.barstash.length + fs.src.length + 1) fs
  unfold LoadInv at h
  obtain ⟨hl, hf, ht, hw⟩ := h
  refine ⟨hl, ?_, ?_, ?_⟩
  · intro hbs hy q hq
    obtain ⟨h1, h2⟩ := hw hy hbs q hq
    exact ⟨le_of_not_lt h1, le_of_not_lt h2⟩
  · intro hbs hsh rest hsrc
    have hfu : fs.barstash.length + fs.src.length + 1
        = (rest.length + 1) + 1 := by
      rw [hsh, hsrc]; simp
    rw [hfu] at hl ⊢
    have h1 := loadLoop_nobar_fst fs (rest.length + 1) hbs hsh rest hsrc
    refine ⟨h1, ?_⟩
    rw [hl, h1]
    simp
  · intro hbs hsh hmu hix dtq rest hsrc htd hfd
    have hfu : fs.barstash.length + fs.src.length + 1
        = (rest.length + 1) + 1 := by
      rw [hsh, hsrc]; simp
    rw [hfu] at hl ⊢
    have h1 := loadLoop_over_fst fs (rest.length + 1) hbs hsh dtq rest hsrc hmu hix hfd htd
    refine ⟨h1, ?_⟩
    rw [hl, h1]
    simp

/-- The concrete feed used in the C7 witness: a bar before `fromdate`
followed by an in-window bar. -/
def c7feed : FeedState :=
  { buf := LineState.init, barstack := [], barstash := [],
    src := [.bar (some 1), .bar (some 5)], fromdate := 2, todate := 10 }

/-- Witness for C7 at a concrete feed. -/
theorem load_protocol_witness :
    c7feed.barstack = [] ∧ (load c7feed).1 = LoadRet.yes ∧
    (load c7feed).2.buf.lencount = c7feed.buf.lencount + 1 ∧
    (c7feed.fromdate ≤ 5 ∧ (5 : ℚ) ≤ c7feed.todate) := by
  refine ⟨rfl, by decide, ?_, ?_⟩
  · have h := (load_protocol c7feed).1
    rw [show (load c7feed).1 = LoadRet.yes from by decide] at h
    simpa using h
  · exact (load_protocol c7feed).2.1 rfl (by decide) 5 (by decide)

/-! ### C3 — per-bar (`_next`) vs vectorized (`_once`) equivalence
for the cited `_LineDelay` indicator -/

theorem pySet_length (l : List Val) (i : ℤ) (v : Val) :
    (pySet l i v).length = l.length := by
  unfold pySet
  cases pyIndex l.length i with
  | none => rfl
  | some j => simp

theorem getq_set_ne (l : List Val) (n m : ℕ) (v : Val) (h : n ≠ m) :
    (l.set n v).get? m = l.get? m := by
  induction l generalizing n m with
  | nil => simp
  | cons a t ih =>
      cases n with
      | zero =>
          cases m with
          | zero => exact absurd rfl h
          | succ k => simp [List.set]
      | succ n2 =>
          cases m with
          | zero => simp [List.set]
          | succ k => simpa [List.set] using ih n2 k (by omega)

theorem getq_append_left (l r : List Val) (j : ℕ) (h : j < l.length) :
    (l ++ r).get? j = l.get? j := by
  induction l generalizing j with
  | nil => simp at h
  | cons a t ih =>
      cases j with
      | zero => rfl
      | succ k => simpa using ih k (by simpa using h)

theorem getq_past_length (l : List Val) (j : ℕ) (h : l.length ≤ j) :
    l.get? j = none := by
  induction l generalizing j with
  | nil => rfl
  | cons a t ih =>
      cases j with
      | zero => simp at h
      | succ k => simpa using ih k (by simp at h; omega)

/-- A write through `pySet` at a nonnegative position. -/
theorem pySet_get (l : List Val) (i : ℕ) (v : Val) (j : ℕ) :
    (pySet l (i : ℤ) v).get? j
      = if j = i ∧ i < l.length then some v else l.get? j := by
  unfold pySet pyIndex
  by_cases h1 : i < l.length
  · rw [if_pos ⟨by omega, by omega⟩]
    simp only [Int.toNat_natCast]
    by_cases h2 : j = i
    · subst h2
      rw [if_pos ⟨rfl, h1⟩]
      exact getq_set_self l j v h1
    · rw [if_neg (by tauto)]
      exact getq_set_ne l i j v (by omega)
  · have : ¬ ((0 : ℤ) ≤ (i : ℤ) ∧ (i : ℤ) < (l.length : ℤ)) := by
      push_neg
      intro _
      omega
    rw [if_neg this]
    have h3 : ¬ (-(l.length : ℤ) ≤ (i : ℤ) ∧ (i : ℤ) < 0) := by omega
    rw [if_neg h3]
    rw [if_neg (by tauto)]

theorem genOnceLoop_length (f : ℤ → Val) (wofs : ℕ) : ∀ (fuel : ℕ)
    (dst : List Val) (i : ℕ),
    (genOnceLoop f wofs dst i fuel).length = dst.length := by
  intro fuel
  induction fuel with
  | zero => intro dst i; rfl
  | succ fuel ih =>
      intro dst i
      rw [genOnceLoop, ih, pySet_length]

/-- What the shared `once` loop leaves at each position: positions
`j = i' - wofs` for loop indices `i'` in `[i, i + fuel)` (and in range)
hold the copied value `f (j + wofs)`, the rest are untouched. -/
theorem genOnceLoop_get (f : ℤ → Val) (wofs : ℕ) : ∀ (fuel : ℕ)
    (dst : List Val) (i j : ℕ), wofs ≤ i →
    (genOnceLoop f wofs dst i fuel).get? j
      = if i ≤ j + wofs ∧ j + wofs < i + fuel ∧ j < dst.length
        then some (f ((j + wofs : ℕ) : ℤ)) else dst.get? j := by
  intro fuel
  induction fuel with
  | zero =>
      intro dst i j _
      rw [genOnceLoop]
      rw [if_neg (by omega)]
  | succ fuel ih =>
      intro dst i j hwi
      rw [genOnceLoop]
      rw [show ((i : ℤ) - (wofs : ℤ)) = ((i - wofs : ℕ) : ℤ) from by omega]
      rw [ih _ _ _ (by omega)]
      rw [pySet_length]
      by_cases hj : i + 1 ≤ j + wofs ∧ j + wofs < i + 1 + fuel ∧ j < dst.length
      · rw [if_pos hj, if_pos (by omega)]
      · rw [if_neg hj]
        rw [pySet_get]
        by_cases h2 : j = i - wofs ∧ i - wofs < dst.length
        · obtain ⟨rfl, h3⟩ := h2
          rw [if_pos ⟨rfl, h3⟩, if_pos (by omega)]
          rw [show i - wofs + wofs = i from by omega]
        · rw [if_neg h2]
          rw [if_neg (by omega)]

/-- One `_next` tick of a `LineActions` indicator preserves the run
invariant (as long as the write offset stays below the minimum period, so
that no boundary write wraps around). -/
theorem genStep_inv (f : ℤ → Val) (wofs mp n : ℕ) (hofs : wofs < mp)
    (c : LineState)
    (hm : c.mode = Mode.UnBounded) (hmp2 : c.minperiod = (mp : ℤ))
    (hlen : c.lencount = (n : ℤ)) (hidx : c.idx = (n : ℤ) - 1)
    (halen : c.array.length = n)
    (hget : ∀ j : ℕ, c.array.get? j
      = if mp ≤ j + wofs + 1 ∧ j + wofs < n
        then some (f ((j + wofs : ℕ) : ℤ))
        else if j < n then some none else none) :
    (genNextStep f wofs c (n + 1)).mode = Mode.UnBounded ∧
    (genNextStep f wofs c (n + 1)).minperiod = (mp : ℤ) ∧
    (genNextStep f wofs c (n + 1)).lencount = ((n + 1 : ℕ) : ℤ) ∧
    (genNextStep f wofs c (n + 1)).idx = ((n + 1 : ℕ) : ℤ) - 1 ∧
    (genNextStep f wofs c (n + 1)).array.length = n + 1 ∧
    ∀ j : ℕ, (genNextStep f wofs c (n + 1)).array.get? j
      = if mp ≤ j + wofs + 1 ∧ j + wofs < n + 1
        then some (f ((j + wofs : ℕ) : ℤ))
        else if j < n + 1 then some none else none := by
  have hv : (((n + 1 : ℕ)) : ℤ) - 1 = ((n : ℕ) : ℤ) := by push_cast; ring
  have hgetA : ∀ j : ℕ, (c.array ++ [none]).get? j
      = if mp ≤ j + wofs + 1 ∧ j + wofs < n
        then some (f ((j + wofs : ℕ) : ℤ))
        else if j < n then some none else if j = n then some none
        else none := by
    intro j
    by_cases h1 : j < n
    · rw [getq_append_left _ _ _ (by omega), hget j]
      by_cases h2 : mp ≤ j + wofs + 1 ∧ j + wofs < n
      · rw [if_pos h2, if_pos h2]
      · rw [if_neg h2, if_neg h2, if_pos h1, if_pos h1]
    · rw [if_neg (by omega)]
      by_cases h2 : j = n
      · subst h2
        rw [if_neg h1, if_pos rfl]
        have h9 := getq_append_right c.array [(none : Val)] 0
        simp only [halen, Nat.add_zero] at h9
        exact h9.trans rfl
      · rw [if_neg h1, if_neg h2]
        exact getq_past_length _ _ (by simp [halen]; omega)
  unfold genNextStep
  rw [if_pos (show ((n + 1 : ℕ) : ℤ) > c.lencount from by
    rw [hlen]; push_cast; omega)]
  by_cases hgt : (c.minperiod : ℤ) < ((n + 1 : ℕ) : ℤ)
  · have hd : lineActionsDispatch ((n + 1 : ℕ) : ℤ) c.minperiod
        = NAction.callNext := by
      unfold lineActionsDispatch
      rw [if_pos hgt]
    rw [hd]
    dsimp only
    rw [hv]
    rw [forward_unbounded c none 1 hm]
    unfold LineState.setAt
    dsimp only
    have hwn : wofs ≤ n := by
      rw [hmp2] at hgt
      push_cast at hgt
      omega
    rw [show c.array ++ List.replicate 1 none = c.array ++ [none] from by
      simp [List.replicate]]
    rw [show c.idx + ((1 : ℕ) : ℤ) + -(wofs : ℤ) = ((n - wofs : ℕ) : ℤ) from by
      push_cast; omega]
    refine ⟨hm, hmp2, by omega, by omega, ?_, ?_⟩
    · rw [pySet_length]
      simp [halen]
    · intro j
      rw [pySet_get]
      have hlen2 : (c.array ++ [none]).length = n + 1 := by simp [halen]
      rw [hlen2]
      by_cases hj : j = n - wofs
      · subst hj
        rw [if_pos ⟨rfl, by omega⟩]
        have hmpn1 : mp ≤ n + 1 := by
          rw [hmp2] at hgt
          push_cast at hgt
          omega
        rw [if_pos (by omega)]
        rw [show n - wofs + wofs = n from by omega]
      · rw [if_neg (by tauto)]
        rw [hgetA j]
        by_cases h2 : mp ≤ j + wofs + 1 ∧ j + wofs < n
        · rw [if_pos h2, if_pos (by omega)]
        · rw [if_neg h2]
          by_cases h3 : j < n
          · rw [if_pos h3, if_neg (by omega), if_pos (by omega)]
          · by_cases h4 : j = n
            · subst h4
              rw [if_neg h3, if_pos rfl, if_neg (by omega), if_pos (by omega)]
            · rw [if_neg h3, if_neg h4, if_neg (by omega), if_neg (by omega)]
  · by_cases heq : ((n + 1 : ℕ) : ℤ) = c.minperiod
    · have hd : lineActionsDispatch ((n + 1 : ℕ) : ℤ) c.minperiod
          = NAction.callNextstart := by
        unfold lineActionsDispatch
        rw [if_neg (by omega), if_pos heq]
      rw [hd]
      dsimp only
      rw [hv]
      rw [forward_unbounded c none 1 hm]
      unfold LineState.setAt
      dsimp only
      have hmpeq : mp = n + 1 := by
        rw [hmp2] at heq
        push_cast at heq
        omega
      have hwn : wofs ≤ n := by omega
      rw [show c.array ++ List.replicate 1 none = c.array ++ [none] from by
        simp [List.replicate]]
      rw [show c.idx + ((1 : ℕ) : ℤ) + -(wofs : ℤ) = ((n - wofs : ℕ) : ℤ) from by
        push_cast; omega]
      refine ⟨hm, hmp2, by omega, by omega, ?_, ?_⟩
      · rw [pySet_length]
        simp [halen]
      · intro j
        rw [pySet_get]
        have hlen2 : (c.array ++ [none]).length = n + 1 := by simp [halen]
        rw [hlen2]
        by_cases hj : j = n - wofs
        · subst hj
          rw [if_pos ⟨rfl, by omega⟩]
          rw [if_pos (by omega)]
          rw [show n - wofs + wofs = n from by omega]
        · rw [if_neg (by tauto)]
          rw [hgetA j]
          by_cases h2 : mp ≤ j + wofs + 1 ∧ j + wofs < n
          · rw [if_pos h2, if_pos (by omega)]
          · rw [if_neg h2]
            by_cases h3 : j < n
            · rw [if_pos h3, if_neg (by omega), if_pos (by omega)]
            · by_cases h4 : j = n
              · subst h4
                rw [if_neg h3, if_pos rfl, if_neg (by omega),
                  if_pos (by omega)]
              · rw [if_neg h3, if_neg h4, if_neg (by omega),
                  if_neg (by omega)]
    · have hd : lineActionsDispatch ((n + 1 : ℕ) : ℤ) c.minperiod
          = NAction.callPrenext := by
        unfold lineActionsDispatch
        rw [if_neg (by omega), if_neg heq]
      rw [hd]
      dsimp only
      rw [forward_unbounded c none 1 hm]
      have hmpgt : n + 1 < mp := by
        rw [hmp2] at hgt heq
        push_cast at hgt heq
        omega
      refine ⟨hm, hmp2, by simp only []; omega, by simp only []; omega,
        by simp [halen], ?_⟩
      intro j
      rw [show c.array ++ List.replicate 1 none = c.array ++ [none] from by
        simp [List.replicate]]
      rw [hgetA j]
      by_cases h2 : mp ≤ j + wofs + 1 ∧ j + wofs < n
      · rw [if_pos h2, if_pos (by omega)]
      · rw [if_neg h2]
        by_cases h3 : j < n
        · rw [if_pos h3, if_neg (by omega), if_pos (by omega)]
        · by_cases h4 : j = n
          · subst h4
            rw [if_neg h3, if_pos rfl, if_neg (by omega), if_pos (by omega)]
          · rw [if_neg h3, if_neg h4, if_neg (by omega), if_neg (by omega)]

/-- The run invariant holds after every number of ticks. -/
theorem genRunN_inv (f : ℤ → Val) (wofs mp : ℕ) (hofs : wofs < mp) :
    ∀ n : ℕ,
    (genRunN f wofs mp n).mode = Mode.UnBounded ∧
    (genRunN f wofs mp n).minperiod = (mp : ℤ) ∧
    (genRunN f wofs mp n).lencount = (n : ℤ) ∧
    (genRunN f wofs mp n).idx = (n : ℤ) - 1 ∧
    (genRunN f wofs mp n).array.length = n ∧
    ∀ j : ℕ, (genRunN f wofs mp n).array.get? j
      = if mp ≤ j + wofs + 1 ∧ j + wofs < n
        then some (f ((j + wofs : ℕ) : ℤ))
        else if j < n then some none else none := by
  intro n
  induction n with
  | zero =>
      refine ⟨rfl, rfl, rfl, by norm_num [genRunN, LineState.init,
        LineState.reset, LineState.set_idx], rfl, ?_⟩
      intro j
      rw [if_neg (by omega), if_neg (by omega)]
      rfl
  | succ n ih =>
      obtain ⟨h1, h2, h3, h4, h5, h6⟩ := ih
      have hr : genRunN f wofs mp (n + 1)
          = genNextStep f wofs (genRunN f wofs mp n) (n + 1) := by
        unfold genRunN
        rw [List.range_succ, List.foldl_append]
        rfl
      rw [hr]
      have hstep := genStep_inv f wofs mp n hofs _ h1 h2 h3 h4 h5 h6
      push_cast at hstep ⊢
      exact hstep

theorem getq_replicate_cases (N j : ℕ) (w : Val) :
    (List.replicate N w).get? j = if j < N then some w else none := by
  by_cases h : j < N
  · rw [if_pos h]
    exact getq_replicate N j w h
  · rw [if_neg h]
    exact getq_past_length _ _ (by simp; omega)

/-- What the vectorized run leaves in the array. -/
theorem genOnce_get (f : ℤ → Val) (wofs mp N : ℕ) (hofs : wofs < mp)
    (hmpN : mp ≤ N) :
    (genOnce f wofs mp N).array.length = N ∧
    ∀ j : ℕ, (genOnce f wofs mp N).array.get? j
      = if mp ≤ j + wofs + 1 ∧ j + wofs < N
        then some (f ((j + wofs : ℕ) : ℤ))
        else if j < N then some none else none := by
  have harr : (({ LineState.init with minperiod := (mp : ℤ) } :
      LineState).forward none N).home.array = List.replicate N none := by
    rw [forward_unbounded _ _ _ rfl]
    unfold LineState.home
    rw [LineState.set_idx_array]
    simp [LineState.init, LineState.reset, LineState.set_idx]
  unfold genOnce
  dsimp only
  rw [harr]
  have hfu : mp - (mp - 1) = 1 := by omega
  rw [hfu]
  constructor
  · rw [genOnceLoop_length, genOnceLoop_length]
    simp
  · intro j
    rw [genOnceLoop_get _ _ _ _ _ _ (by omega)]
    rw [genOnceLoop_length]
    rw [List.length_replicate]
    rw [genOnceLoop_get _ _ _ _ _ _ (by omega)]
    rw [List.length_replicate]
    rw [getq_replicate_cases]
    by_cases hA : mp ≤ j + wofs ∧ j + wofs < mp + (N - mp) ∧ j < N
    · rw [if_pos hA, if_pos (by omega)]
    · rw [if_neg hA]
      by_cases hB : mp - 1 ≤ j + wofs ∧ j + wofs < mp - 1 + 1 ∧ j < N
      · rw [if_pos hB, if_pos (by omega)]
      · rw [if_neg hB]
        by_cases hC : j < N
        · rw [if_pos hC, if_neg (by omega)]
        · rw [if_neg hC, if_neg (by omega)]

/-- The two execution modes of the shared scaffold agree whenever the
write offset stays below the minimum period and the data covers the
minimum period. -/
theorem gen_next_eq_once (f : ℤ → Val) (wofs mp N : ℕ)
    (hofs : wofs < mp) (hmpN : mp ≤ N) :
    (genRunN f wofs mp N).array = (genOnce f wofs mp N).array := by
  obtain ⟨_, _, _, _, _, hR⟩ := genRunN_inv f wofs mp hofs N
  obtain ⟨_, hO⟩ := genOnce_get f wofs mp N hofs hmpN
  apply List.ext_get?_iff.mpr
  intro j
  rw [hR j, hO j]

/-- Counterexample to C3 as stated: `_LineForward` with `ago = 2` on a
minimum-period-1 source, where the code makes `min_period = ago`, so the
boundary write `self[-ago]` at `clock_len == min_period` wraps around —
to the current slot in per-bar mode but to the last slot of the whole
array in vectorized mode — and the two modes deliver different line
values on the same input. -/
theorem lineForward_counterexample :
    (lineForwardNextRun [some 10, some 20, some 30] 2 2).array
        = [some 30, some 20, none] ∧
    (lineForwardOnce [some 10, some 20, some 30] 2 2).array
        = [some 30, none, some 20] ∧
    (lineForwardNextRun [some 10, some 20, some 30] 2 2).array
        ≠ (lineForwardOnce [some 10, some 20, some 30] 2 2).array := by
  decide

/-- C3 (amended): for every input sequence, the per-bar (`_next`) and
vectorized (`_once`) modes produce identical line values for each of the
`LineActions` indicators of `linebuffer.py` — `_LineDelay` (its `ago ≤ 0`
regime, where `addminperiod(abs(ago) + 1)` keeps `|ago| < min_period`),
`LinesOperation` on two equally long line operands, `LineOwnOperation`,
and `_LineForward` whenever `ago < min_period`; exact equality, stronger
than the claimed floating tolerance.  (When `_LineForward` has
`min_period = ago` — the case its constructor produces for
`ago > a._minperiod` — the modes genuinely differ, see the
counterexample.) -/
theorem indicator_next_eq_once (srca srcb : List Val)
    (op2 : Val → Val → Val) (op1 : Val → Val) (ago : ℤ) (agof mp : ℕ)
    (_hago : ago ≤ 0) (_hmpa : -ago < (mp : ℤ))
    (hmpN : mp ≤ srca.length) (_hlen : srcb.length = srca.length)
    (hagof : agof < mp) :
    (lineDelayNextRun srca ago mp).array
        = (lineDelayOnce srca ago mp).array ∧
    (linesOperationNextRun srca srcb op2 mp).array
        = (linesOperationOnce srca srcb op2 mp).array ∧
    (lineOwnOperationNextRun srca op1 mp).array
        = (lineOwnOperationOnce srca op1 mp).array ∧
    (lineForwardNextRun srca agof mp).array
        = (lineForwardOnce srca agof mp).array :=
  ⟨gen_next_eq_once _ 0 mp srca.length (by omega) hmpN,
   gen_next_eq_once _ 0 mp srca.length (by omega) hmpN,
   gen_next_eq_once _ 0 mp srca.length (by omega) hmpN,
   gen_next_eq_once _ agof mp srca.length hagof hmpN⟩

/-- First operand line for the C3 witness. -/
def witSrcA : List Val := [some 1, some 2, some 3, some 4]

/-- Second operand line for the C3 witness. -/
def witSrcB : List Val := [some 5, some 6, some 7, some 8]

/-- A concrete binary operation (`NAN`-propagating addition). -/
def witOp2 : Val → Val → Val := fun a b =>
  match a, b with
  | some x, some y => some (x + y)
  | _, _ => none

/-- A concrete unary operation (`NAN`-propagating negation). -/
def witOp1 : Val → Val := fun a =>
  match a with
  | some x => some (-x)
  | none => none

/-- Witness for the amended C3 at concrete sources, operations, delay and
minimum period. -/
theorem indicator_next_eq_once_witness :
    ((-1 : ℤ) ≤ 0 ∧ -(-1 : ℤ) < ((2 : ℕ) : ℤ) ∧ 2 ≤ witSrcA.length ∧
      witSrcB.length = witSrcA.length ∧ 1 < 2) ∧
    ((lineDelayNextRun witSrcA (-1) 2).array
        = (lineDelayOnce witSrcA (-1) 2).array ∧
     (linesOperationNextRun witSrcA witSrcB witOp2 2).array
        = (linesOperationOnce witSrcA witSrcB witOp2 2).array ∧
     (lineOwnOperationNextRun witSrcA witOp1 2).array
        = (lineOwnOperationOnce witSrcA witOp1 2).array ∧
     (lineForwardNextRun witSrcA 1 2).array
        = (lineForwardOnce witSrcA 1 2).array) :=
  ⟨⟨by decide, by decide, by decide, by decide, by decide⟩,
   indicator_next_eq_once witSrcA witSrcB witOp2 witOp1 (-1) 1 2
     (by decide) (by decide) (by decide) (by decide) (by decide)⟩

/-! ### C9 — a non-repeating timer fires at most once per calendar date -/

/-- A `check` call on a date recorded in `_lastcall` returns `False` at
once, leaving the state untouched. -/
theorem check_lastcall_self (env : TimerEnv) (p : TimerParams)
    (s : TimerState) (dt : ℤ) (h : s.lastcall = some (dateOf dt)) :
    Timer.check env p s dt = (false, s) := by
  unfold Timer.check
  rw [if_pos h]

/-- A firing `checkFireTail` of a non-repeating timer records the current
date in `_lastcall`. -/
theorem checkFireTail_true_lastcall (env : TimerEnv) (p : TimerParams)
    (s3 : TimerState) (dt : ℤ) (hrep : p.rep = 0)
    (hfire : (checkFireTail env p s3 dt).1 = true) :
    (checkFireTail env p s3 dt).2.lastcall = some (dateOf dt) := by
  unfold checkFireTail at hfire ⊢
  dsimp only at hfire ⊢
  by_cases hlt : dt < s3.dtwhen.getD 0
  · rw [if_pos hlt] at hfire
    simp at hfire
  · rw [if_neg hlt] at hfire ⊢
    rw [if_pos hrep]
    rfl

/-- A firing `checkFire` of a non-repeating timer records the current date
in `_lastcall`. -/
theorem checkFire_true_lastcall (env : TimerEnv) (p : TimerParams)
    (s2 : TimerState) (dt : ℤ) (hrep : p.rep = 0)
    (hfire : (checkFire env p s2 dt).1 = true) :
    (checkFire env p s2 dt).2.lastcall = some (dateOf dt) := by
  unfold checkFire at hfire ⊢
  exact checkFireTail_true_lastcall env p _ dt hrep hfire

/-- A firing `check` of a non-repeating timer records the current date in
`_lastcall`. -/
theorem check_true_lastcall (env : TimerEnv) (p : TimerParams)
    (s : TimerState) (dt : ℤ) (hrep : p.rep = 0)
    (hfire : (Timer.check env p s dt).1 = true) :
    (Timer.check env p s dt).2.lastcall = some (dateOf dt) := by
  unfold Timer.check at hfire ⊢
  by_cases h1 : s.lastcall = some (dateOf dt)
  · rw [if_pos h1] at hfire
    simp at hfire
  · rw [if_neg h1] at hfire ⊢
    by_cases h2 : (checkStage2 env p (checkEos env p s dt) (dateOf dt)).1
        = false
    · rw [if_pos h2] at hfire
      simp at hfire
    · rw [if_neg h2] at hfire ⊢
      exact checkFire_true_lastcall env p _ dt hrep hfire

/-- C9: a non-repeating timer (`repeat` unset) fires at most once per
calendar date — after `check(dt)` returns `True` on date `D`, every
further `check` call with a datetime on the same date returns `False` and
leaves the timer state unchanged, so the timer can never fire twice on one
day. -/
theorem timer_once_per_date (env : TimerEnv) (p : TimerParams)
    (s : TimerState) (dt : ℤ) (hrep : p.rep = 0)
    (hfire : (Timer.check env p s dt).1 = true) :
    ∀ dt2 : ℤ, dateOf dt2 = dateOf dt →
      Timer.check env p (Timer.check env p s dt).2 dt2
        = (false, (Timer.check env p s dt).2) := by
  intro dt2 hdt2
  apply check_lastcall_self
  rw [hdt2]
  exact check_true_lastcall env p s dt hrep hfire

/-- A trivial calendar environment for the C9 witness. -/
def timerEnv0 : TimerEnv :=
  { month := fun _ => 1, day := fun _ => 1, isoweek := fun _ => 1,
    isoweekday := fun _ => 1, eosData := fun _ => 0 }

/-- A plain non-repeating timer (fire at session time 0, no filters). -/
def timerP0 : TimerParams :=
  { whenP := 0, offset := 0, rep := 0, monthdays := [], monthcarry := true,
    weekdays := [], weekcarry := false, allow := none, isdata := false }

/-- The state of `timerP0` right after `Timer.start`. -/
def timerS0 : TimerState :=
  { whenT := 0, dtwhen := none, dwhen := none, lastcall := none,
    nexteos := 0, curdate := 0, curmonth := -1, monthmask := [],
    curweek := -1, weekmask := [], lastwhen := none }

/-- Day 100 at midnight, in microseconds. -/
def timerDt0 : ℤ := 8640000000000

/-- Witness for C9: the concrete timer fires once and the repeated check
on the same date returns `False` without touching the state. -/
theorem timer_once_per_date_witness :
    timerP0.rep = 0 ∧
    (Timer.check timerEnv0 timerP0 timerS0 timerDt0).1 = true ∧
    Timer.check timerEnv0 timerP0
        (Timer.check timerEnv0 timerP0 timerS0 timerDt0).2 timerDt0
      = (false, (Timer.check timerEnv0 timerP0 timerS0 timerDt0).2) :=
  ⟨rfl, by decide,
   timer_once_per_date timerEnv0 timerP0 timerS0 timerDt0 rfl (by decide)
     timerDt0 rfl⟩

end Backtrader
